import Mathlib

/-!
Verification of the role reconciliation engine of the AI-XML-Role-Validator
repository: the normalizer (`src/utils.py`, `normalize_role`), the similarity
threshold wrappers (`fuzzy_match`, `fuzzy_partial_match` — the second one is
embedded here under the name `fuzzy_part_match`), and the matcher
(`src/role_comparer.py`, `RoleComparer.compare_roles`).

Strings are modelled as lists of characters (`Str`).  Python regular
expression character classes are modelled over ASCII: `\w` as alphanumeric or
underscore, `\s` as the six ASCII whitespace characters.  The similarity
primitives `fuzz.ratio` / `fuzz.partial_ratio` come from the third-party
`thefuzz` library; they are modelled as an explicit pair of scoring functions
(`FuzzyFns`) passed to the comparison, exactly as the comparer only ever uses
them through the two threshold wrappers.

Python `dict` values built by comprehension are modelled as association lists
in insertion order where a later duplicate key keeps its original position and
overwrites the stored value (`insertPair` / `buildDict`), matching CPython
semantics.  Python `set` values that are only ever sorted or iterated with
order-independent results are modelled as duplicate-free lists.
-/

/-- A raw role string, modelled as its list of characters. -/
abbrev Str := List Char

/-- ASCII model of the Python regex class `\s` (and of `str.strip`'s default
whitespace set). -/
def isPySpace (c : Char) : Bool :=
  c = ' ' || c = '\t' || c = '\n' || c = '\r' || c = '\x0b' || c = '\x0c'

/-- ASCII model of the Python regex class `\w`: alphanumeric or underscore. -/
def isPyWord (c : Char) : Bool :=
  c.isAlphanum || c = '_'

/-- Model of Python `str.lower()` (ASCII letters). -/
def lowerStr (s : Str) : Str :=
  s.map Char.toLower

/-- Model of Python `str.strip()`: drop leading and trailing whitespace. -/
def stripWS (s : Str) : Str :=
  ((s.dropWhile isPySpace).reverse.dropWhile isPySpace).reverse

/-- Model of `re.sub(r'[^\w\s]', '', s)`: keep only word or whitespace
characters. -/
def removeNonWord (s : Str) : Str :=
  s.filter (fun c => isPyWord c || isPySpace c)

/-- Worker for `collapseWS`; the flag records whether the previously emitted
character was the space produced for a whitespace run. -/
def collapseAux : Bool → Str → Str
  | _, [] => []
  | b, c :: rest =>
    if isPySpace c then
      if b then collapseAux true rest
      else ' ' :: collapseAux true rest
    else c :: collapseAux false rest

/-- Model of `re.sub(r'\s+', ' ', s)`: replace every maximal whitespace run
by a single space. -/
def collapseWS (s : Str) : Str :=
  collapseAux false s

/-- `normalize_role` from `src/utils.py`: lowercase, strip, remove
non-word/non-space characters, collapse whitespace runs to single spaces. -/
def normalize_role (role_name : Str) : Str :=
  collapseWS (removeNonWord (stripWS (lowerStr role_name)))

example : normalize_role "Software Engineer!".data = "software engineer".data := by decide

example : normalize_role "  Senior-Developer  ".data = "seniordeveloper".data := by decide

example : normalize_role "- a".data = " a".data := by decide

/-- The pair of similarity scoring functions supplied by the third-party
`thefuzz` library: `score` models `fuzz.ratio` (whole-string similarity) and
`windowScore` models `fuzz.partial_ratio` (best-aligned substring-window
similarity).  The comparer only ever consumes them through the two threshold
wrappers below, so they are an explicit parameter of the embedding. -/
structure FuzzyFns where
  score : Str → Str → Nat
  windowScore : Str → Str → Nat

/-- `fuzzy_match` from `src/utils.py`: whole-string similarity meets the
threshold. -/
def fuzzy_match (F : FuzzyFns) (str1 str2 : Str) (threshold : Nat) : Bool :=
  decide (threshold ≤ F.score str1 str2)

/-- `fuzzy_partial_match` from `src/utils.py` (embedded under a shortened
name): substring-window similarity meets the threshold. -/
def fuzzy_part_match (F : FuzzyFns) (str1 str2 : Str) (threshold : Nat) : Bool :=
  decide (threshold ≤ F.windowScore str1 str2)

/-- One insertion step of a Python dict comprehension: a duplicate key keeps
its original position but the stored value is overwritten (last wins); a new
key is appended. -/
def insertPair (m : List (Str × Str)) (k v : Str) : List (Str × Str) :=
  if m.any (fun p => decide (p.1 = k)) then
    m.map (fun p => if p.1 = k then (k, v) else p)
  else
    m ++ [(k, v)]

/-- The dict comprehension `{normalize_role(role): role for role in roles}`
from `compare_roles` (used for both `normalized_xml_roles` and
`normalized_pdf_to_original`). -/
def buildDict (roles : List Str) : List (Str × Str) :=
  roles.foldl (fun m role => insertPair m (normalize_role role) role) []

/-- Python `key in dict`. -/
def hasKey (m : List (Str × Str)) (k : Str) : Bool :=
  m.any (fun p => decide (p.1 = k))

/-- Python `dict[key]` (total, returning the empty string on a missing key;
the comparer only indexes with keys that are present). -/
def lookupD : List (Str × Str) → Str → Str
  | [], _ => []
  | p :: rest, k => if p.1 = k then p.2 else lookupD rest k

/-- Python `set.add` on a set modelled as a duplicate-free list. -/
def setInsert (x : Str) (s : List Str) : List Str :=
  if x ∈ s then s else s ++ [x]

/-- Lexicographic (code-point) order on strings as a boolean, matching the
default Python `str` comparison used by `sorted`. -/
def strLeb : Str → Str → Bool
  | [], _ => true
  | _ :: _, [] => false
  | a :: as, b :: bs => if a = b then strLeb as bs else decide (a < b)

/-- The propositional form of `strLeb`. -/
def StrLe (a b : Str) : Prop := strLeb a b = true

instance : DecidableRel StrLe :=
  fun a b => inferInstanceAs (Decidable (strLeb a b = true))

/-- Python `sorted` on a list of strings. -/
def sortStr (l : List Str) : List Str :=
  l.insertionSort StrLe

/-- The result quadruple returned by `RoleComparer.compare_roles`. -/
structure MatchResult where
  is_incorrect : Bool
  matched_roles : List Str
  incorrect_pdf_roles : List Str
  fuzzy_matches : List (Str × Str)
deriving DecidableEq

/-- One iteration of step 1 of `compare_roles` (direct matching): a key
present in the XML index records the index's original spelling as matched,
any other key stays potentially incorrect. -/
def dstep (xmlDict : List (Str × Str)) (acc : List Str × List Str)
    (p : Str × Str) : List Str × List Str :=
  if hasKey xmlDict p.1 then (setInsert (lookupD xmlDict p.1) acc.1, acc.2)
  else (acc.1, acc.2 ++ [p.1])

/-- Step 1 of `compare_roles`: iterate the items of the normalized-PDF dict,
returning the matched XML spellings and the still-potentially-incorrect
normalized keys. -/
def directPass (xmlDict : List (Str × Str)) (pdfItems : List (Str × Str)) :
    List Str × List Str :=
  pdfItems.foldl (dstep xmlDict) ([], [])

/-- The inner loop of step 2 of `compare_roles`: scan the XML roles in input
order, testing `fuzzy_match` first and `fuzzy_partial_match` second, and stop
at the first candidate passing either test. -/
def findFuzzy (F : FuzzyFns) (th : Nat) (orig_pdf : Str) : List Str → Option Str
  | [] => none
  | orig_xml :: rest =>
    if fuzzy_match F orig_pdf orig_xml th then some orig_xml
    else if fuzzy_part_match F orig_pdf orig_xml th then some orig_xml
    else findFuzzy F th orig_pdf rest

/-- Mutable state of step 2 of `compare_roles`. -/
structure FuzzyState where
  matched : List Str
  fuzzy_map : List (Str × Str)
  still_incorrect : List Str

/-- One iteration of step 2 of `compare_roles` (fuzzy matching): look up the
original spelling of a still-unmatched normalized PDF key and scan the XML
roles; a hit extends the matched set and the fuzzy map, a miss records the
key as still incorrect. -/
def fstep (F : FuzzyFns) (th : Nat) (xml_roles : List Str)
    (pdfDict : List (Str × Str)) (st : FuzzyState) (norm : Str) : FuzzyState :=
  let orig := lookupD pdfDict norm
  match findFuzzy F th orig xml_roles with
  | some x =>
      { st with
        matched := setInsert x st.matched
        fuzzy_map := st.fuzzy_map ++ [(orig, x)] }
  | none =>
      { st with still_incorrect := st.still_incorrect ++ [norm] }

/-- Step 2 of `compare_roles`: fold the fuzzy-matching iteration over all
still-unmatched normalized PDF keys. -/
def fuzzyPass (F : FuzzyFns) (th : Nat) (xml_roles : List Str)
    (pdfDict : List (Str × Str)) (matched0 : List Str)
    (potentially : List Str) : FuzzyState :=
  potentially.foldl (fstep F th xml_roles pdfDict) ⟨matched0, [], []⟩

/-- `RoleComparer.compare_roles` from `src/role_comparer.py`.  The Python
`for norm_pdf in potentially_incorrect` loop iterates a `set` in unspecified
order; it is modelled here in dict insertion order (every observable output is
a sorted list, a duplicate-free set, or a map keyed by distinct strings, so
iteration order does not affect the result). -/
def compare_roles (F : FuzzyFns) (fuzzy_threshold : Nat)
    (xml_roles pdf_roles : List Str) : MatchResult :=
  let normalized_xml_roles := buildDict xml_roles
  let normalized_pdf_to_original := buildDict pdf_roles
  let step1 := directPass normalized_xml_roles normalized_pdf_to_original
  let st := fuzzyPass F fuzzy_threshold xml_roles normalized_pdf_to_original
    step1.1 step1.2
  { is_incorrect := !st.still_incorrect.isEmpty
    matched_roles := sortStr st.matched
    incorrect_pdf_roles := sortStr (st.still_incorrect.map
      (lookupD normalized_pdf_to_original))
    fuzzy_matches := st.fuzzy_map }

/-- A scoring pair whose similarity is always 0: no fuzzy test ever passes. -/
def zeroFuzz : FuzzyFns where
  score := fun _ _ => 0
  windowScore := fun _ _ => 0

/-- A scoring pair whose similarity is always 100: every fuzzy test at an
in-range threshold passes. -/
def fullFuzz : FuzzyFns where
  score := fun _ _ => 100
  windowScore := fun _ _ => 100

/-- A concrete scoring pair realizable by edit-distance ratios: `"abcde"`
scores 80 against `"abcdf"` (one substitution in five characters), 40 against
anything else unequal, and 100 against itself; used to exhibit the first-fit
threshold behaviour. -/
def stepFuzz : FuzzyFns where
  score := fun s1 s2 =>
    if s1 = s2 then 100
    else if (s1 = "abcde".data ∧ s2 = "abcdf".data) ∨
        (s1 = "abcdf".data ∧ s2 = "abcde".data) then 80
    else 40
  windowScore := fun s1 s2 =>
    if s1 = s2 then 100
    else if (s1 = "abcde".data ∧ s2 = "abcdf".data) ∨
        (s1 = "abcdf".data ∧ s2 = "abcde".data) then 80
    else 40

/-- Two adjacent characters are not both whitespace. -/
def SpaceApart (a b : Char) : Prop :=
  ¬(isPySpace a = true ∧ isPySpace b = true)

/-- The key list of a dict, in insertion order. -/
def dictKeys (m : List (Str × Str)) : List Str :=
  m.map Prod.fst

/-- The normalized PDF keys that survive the direct pass (specification-side
description of `potentially_incorrect` after step 1): the keys of the
normalized-PDF dict that are not keys of the XML index, in insertion order. -/
def unresolvedKeys (xml_roles pdf_roles : List Str) : List Str :=
  ((buildDict pdf_roles).filter
    (fun p => !hasKey (buildDict xml_roles) p.1)).map Prod.fst

/-- Specification-side description (from the spec's words) of the inner scan
of the fuzzy pass: the first XML role, in original input order, whose raw
string passes `fuzzy_match` or `fuzzy_partial_match` against the raw
unresolved PDF spelling. -/
def firstFuzzyHit (F : FuzzyFns) (th : Nat) (orig_pdf : Str)
    (xml_roles : List Str) : Option Str :=
  xml_roles.find?
    (fun x => fuzzy_match F orig_pdf x th || fuzzy_part_match F orig_pdf x th)

/-- Specification-side description (from the spec's words) of the whole fuzzy
pass: for every PDF entry unresolved after the direct pass, pair its original
spelling with the first XML candidate passing either fuzzy test, skipping the
entries with no passing candidate. -/
def fuzzyPassSpec (F : FuzzyFns) (th : Nat) (xml_roles pdf_roles : List Str) :
    List (Str × Str) :=
  ((buildDict pdf_roles).filter
    (fun p => !hasKey (buildDict xml_roles) p.1)).filterMap
      (fun p => (firstFuzzyHit F th p.2 xml_roles).map (fun x => (p.2, x)))

example :
    compare_roles fullFuzz 80 ["Manager".data] ["Managar".data] =
      ⟨false, ["Manager".data], [], [("Managar".data, "Manager".data)]⟩ := by
  decide

example :
    compare_roles zeroFuzz 80 ["Manager".data] ["Astronaut".data] =
      ⟨true, [], ["Astronaut".data], []⟩ := by
  decide

example :
    compare_roles zeroFuzz 80 [] [" ".data] =
      ⟨true, [], [" ".data], []⟩ := by
  decide

example :
    lookupD (buildDict ["Manager".data, "MANAGER".data]) "manager".data =
      "MANAGER".data := by
  decide

/-! ### Character-level facts about the normalizer -/

theorem char_toNat_ofNat_valid (n : Nat) (h : n.isValidChar) :
    (Char.ofNat n).toNat = n := by
  unfold Char.ofNat
  rw [dif_pos h]
  rfl

theorem toLower_idem (c : Char) : c.toLower.toLower = c.toLower := by
  unfold Char.toLower
  by_cases h : 65 ≤ c.toNat ∧ c.toNat ≤ 90
  · rw [if_pos h]
    have hv : (c.toNat + 32).isValidChar := Or.inl (by omega)
    have ht : (Char.ofNat (c.toNat + 32)).toNat = c.toNat + 32 :=
      char_toNat_ofNat_valid _ hv
    rw [ht, if_neg (by omega)]
  · rw [if_neg h, if_neg h]

theorem mem_collapseAux :
    ∀ (s : Str) (b : Bool) (c : Char), c ∈ collapseAux b s →
      c = ' ' ∨ (c ∈ s ∧ isPySpace c = false) := by
  intro s
  induction s with
  | nil => intro b c hc; simp [collapseAux] at hc
  | cons a rest ih =>
    intro b c hc
    unfold collapseAux at hc
    by_cases hsp : isPySpace a = true
    · rw [if_pos hsp] at hc
      cases b with
      | true =>
        rcases ih true c hc with h | h
        · exact Or.inl h
        · exact Or.inr ⟨List.mem_cons_of_mem _ h.1, h.2⟩
      | false =>
        rcases List.mem_cons.mp hc with h | h
        · exact Or.inl h
        · rcases ih true c h with h' | h'
          · exact Or.inl h'
          · exact Or.inr ⟨List.mem_cons_of_mem _ h'.1, h'.2⟩
    · rw [if_neg hsp] at hc
      rcases List.mem_cons.mp hc with h | h
      · subst h
        exact Or.inr ⟨List.mem_cons_self _ _, by simpa using hsp⟩
      · rcases ih false c h with h' | h'
        · exact Or.inl h'
        · exact Or.inr ⟨List.mem_cons_of_mem _ h'.1, h'.2⟩

theorem head?_collapseAux_true :
    ∀ (s : Str) (c : Char), (collapseAux true s).head? = some c →
      isPySpace c = false := by
  intro s
  induction s with
  | nil => intro c hc; simp [collapseAux] at hc
  | cons a rest ih =>
    intro c hc
    unfold collapseAux at hc
    by_cases hsp : isPySpace a = true
    · rw [if_pos hsp] at hc
      exact ih c hc
    · rw [if_neg hsp] at hc
      simp only [List.head?_cons, Option.some.injEq] at hc
      subst hc
      simpa using hsp

theorem chain'_collapseAux :
    ∀ (s : Str) (b : Bool), List.Chain' SpaceApart (collapseAux b s) := by
  intro s
  induction s with
  | nil => intro b; simp [collapseAux]
  | cons a rest ih =>
    intro b
    unfold collapseAux
    by_cases hsp : isPySpace a = true
    · rw [if_pos hsp]
      cases b with
      | true => exact ih true
      | false =>
        rw [if_neg Bool.false_ne_true]
        rw [List.chain'_cons']
        refine ⟨?_, ih true⟩
        intro y hy
        have hns : isPySpace y = false := head?_collapseAux_true rest y hy
        intro hcon
        rw [hns] at hcon
        exact Bool.false_ne_true hcon.2
    · rw [if_neg hsp]
      rw [List.chain'_cons']
      refine ⟨?_, ih false⟩
      intro y _
      intro hcon
      exact hsp hcon.1

theorem collapseAux_eq_self :
    ∀ (s : Str) (b : Bool), List.Chain' SpaceApart s →
      (∀ c ∈ s, isPySpace c = true → c = ' ') →
      (b = true → ∀ c, s.head? = some c → isPySpace c = false) →
      collapseAux b s = s := by
  intro s
  induction s with
  | nil => intro b _ _ _; rfl
  | cons a rest ih =>
    intro b hch hsp hd
    have hch' : List.Chain' SpaceApart rest := (List.chain'_cons'.mp hch).2
    have hrel : ∀ y, rest.head? = some y → SpaceApart a y := by
      intro y hy
      exact (List.chain'_cons'.mp hch).1 y hy
    unfold collapseAux
    by_cases ha : isPySpace a = true
    · cases b with
      | true =>
        exact absurd ha (by simp [hd rfl a List.head?_cons])
      | false =>
        rw [if_pos ha]
        have hblank : a = ' ' := hsp a (List.mem_cons_self _ _) ha
        have hrest : collapseAux true rest = rest := by
          apply ih true hch'
          · intro c hc hc'
            exact hsp c (List.mem_cons_of_mem _ hc) hc'
          · intro _ c hc
            have := hrel c hc
            unfold SpaceApart at this
            by_contra hcon
            exact this ⟨ha, by simpa using hcon⟩
        rw [hrest, hblank, if_neg Bool.false_ne_true]
    · rw [if_neg ha]
      have hrest : collapseAux false rest = rest := by
        apply ih false hch'
        · intro c hc hc'
          exact hsp c (List.mem_cons_of_mem _ hc) hc'
        · intro hfalse
          exact absurd hfalse (by simp)
      rw [hrest]

theorem collapseWS_eq_self (s : Str) (h1 : List.Chain' SpaceApart s)
    (h2 : ∀ c ∈ s, isPySpace c = true → c = ' ') : collapseWS s = s :=
  collapseAux_eq_self s false h1 h2 (by simp)

/-! ### Structure of normalized strings -/

theorem stripWS_subset (s : Str) : stripWS s ⊆ s := by
  intro c hc
  unfold stripWS at hc
  rw [List.mem_reverse] at hc
  have h1 := (List.dropWhile_suffix (l := (s.dropWhile isPySpace).reverse)
    isPySpace).subset hc
  rw [List.mem_reverse] at h1
  exact (List.dropWhile_suffix isPySpace).subset h1

theorem stripWS_infix_self (s : Str) : stripWS s <:+: s := by
  have h1 : s.dropWhile isPySpace <:+ s := List.dropWhile_suffix _
  have h2 : (s.dropWhile isPySpace).reverse.dropWhile isPySpace <:+
      (s.dropWhile isPySpace).reverse := List.dropWhile_suffix _
  have h3 : stripWS s <+: s.dropWhile isPySpace := by
    rw [← List.reverse_suffix]
    unfold stripWS
    simpa using h2
  exact h3.isInfix.trans h1.isInfix

theorem norm_chars (s : Str) :
    ∀ c ∈ normalize_role s,
      c = ' ' ∨ (isPyWord c = true ∧ isPySpace c = false ∧ c.toLower = c) := by
  intro c hc
  rcases mem_collapseAux _ false c hc with h | h
  · exact Or.inl h
  · rcases h with ⟨hmem, hns⟩
    have hmem' := hmem
    unfold removeNonWord at hmem'
    rw [List.mem_filter] at hmem'
    rcases hmem' with ⟨hstrip, hword⟩
    have hword' : isPyWord c = true := by
      rw [hns] at hword
      simpa using hword
    have hlc : c.toLower = c := by
      have hml : c ∈ lowerStr s := stripWS_subset _ hstrip
      unfold lowerStr at hml
      rw [List.mem_map] at hml
      rcases hml with ⟨c0, _, hc0⟩
      rw [← hc0]
      exact toLower_idem c0
    exact Or.inr ⟨hword', hns, hlc⟩

theorem norm_toLower_fixed (s : Str) :
    ∀ c ∈ normalize_role s, c.toLower = c := by
  intro c hc
  rcases norm_chars s c hc with h | h
  · subst h; decide
  · exact h.2.2

theorem norm_word_or_space (s : Str) :
    ∀ c ∈ normalize_role s, (isPyWord c || isPySpace c) = true := by
  intro c hc
  rcases norm_chars s c hc with h | h
  · subst h; decide
  · simp [h.1]

theorem norm_space_is_blank (s : Str) :
    ∀ c ∈ normalize_role s, isPySpace c = true → c = ' ' := by
  intro c hc hsp
  rcases norm_chars s c hc with h | h
  · exact h
  · rw [h.2.1] at hsp; exact absurd hsp (by simp)

theorem norm_chain (s : Str) :
    List.Chain' SpaceApart (normalize_role s) :=
  chain'_collapseAux _ false

/-! ### Association-list dictionary facts -/

theorem hasKey_iff_mem_keys (m : List (Str × Str)) (k : Str) :
    hasKey m k = true ↔ k ∈ dictKeys m := by
  unfold hasKey dictKeys
  simp only [List.any_eq_true, decide_eq_true_eq, List.mem_map]

theorem dictKeys_insertPair (m : List (Str × Str)) (k v : Str) :
    dictKeys (insertPair m k v) =
      if hasKey m k = true then dictKeys m else dictKeys m ++ [k] := by
  unfold insertPair hasKey dictKeys
  by_cases h : m.any (fun p => decide (p.1 = k)) = true
  · rw [if_pos h, if_pos h, List.map_map]
    apply List.map_congr_left
    intro p _
    by_cases hp : p.1 = k
    · simp [hp]
    · simp [hp]
  · rw [if_neg h, if_neg h, List.map_append]
    rfl

theorem mem_insertPair (m : List (Str × Str)) (k v : Str) (q : Str × Str)
    (h : q ∈ insertPair m k v) : q ∈ m ∨ q = (k, v) := by
  unfold insertPair at h
  by_cases hk : m.any (fun p => decide (p.1 = k)) = true
  · rw [if_pos hk] at h
    rw [List.mem_map] at h
    rcases h with ⟨p, hp, hq⟩
    by_cases hpk : p.1 = k
    · rw [if_pos hpk] at hq
      exact Or.inr hq.symm
    · rw [if_neg hpk] at hq
      exact Or.inl (hq ▸ hp)
  · rw [if_neg hk] at h
    rcases List.mem_append.mp h with h | h
    · exact Or.inl h
    · exact Or.inr (List.mem_singleton.mp h)

theorem keys_nodup_insertPair (m : List (Str × Str)) (k v : Str)
    (h : (dictKeys m).Nodup) : (dictKeys (insertPair m k v)).Nodup := by
  rw [dictKeys_insertPair]
  by_cases hk : hasKey m k = true
  · rw [if_pos hk]; exact h
  · rw [if_neg hk]
    rw [List.nodup_append]
    refine ⟨h, List.nodup_singleton k, ?_⟩
    intro a ha hb
    rw [List.mem_singleton] at hb
    subst hb
    exact hk ((hasKey_iff_mem_keys m a).mpr ha)

theorem buildDict_keys_nodup (roles : List Str) :
    (dictKeys (buildDict roles)).Nodup := by
  unfold buildDict
  have main : ∀ (l : List Str) (m : List (Str × Str)), (dictKeys m).Nodup →
      (dictKeys (l.foldl
        (fun m role => insertPair m (normalize_role role) role) m)).Nodup := by
    intro l
    induction l with
    | nil => intro m hm; exact hm
    | cons r rest ih =>
      intro m hm
      exact ih _ (keys_nodup_insertPair m _ r hm)
  exact main roles [] (by simp [dictKeys])

theorem buildDict_fold_pred (Q : Str × Str → Prop) :
    ∀ (l : List Str) (m : List (Str × Str)), (∀ p ∈ m, Q p) →
      (∀ r ∈ l, Q (normalize_role r, r)) →
      ∀ p ∈ l.foldl (fun m role => insertPair m (normalize_role role) role) m,
        Q p := by
  intro l
  induction l with
  | nil => intro m hm _ p hp; exact hm p hp
  | cons r rest ih =>
    intro m hm hl p hp
    apply ih (insertPair m (normalize_role r) r) ?_ ?_ p hp
    · intro q hq
      rcases mem_insertPair _ _ _ q hq with h | h
      · exact hm q h
      · subst h; exact hl r (List.mem_cons_self _ _)
    · intro x hx
      exact hl x (List.mem_cons_of_mem _ hx)

theorem buildDict_norm (roles : List Str) :
    ∀ p ∈ buildDict roles, normalize_role p.2 = p.1 := by
  intro p hp
  exact buildDict_fold_pred (fun p => normalize_role p.2 = p.1) roles []
    (by simp) (fun _ _ => rfl) p hp

theorem buildDict_val_mem (roles : List Str) :
    ∀ p ∈ buildDict roles, p.2 ∈ roles := by
  intro p hp
  exact buildDict_fold_pred (fun p => p.2 ∈ roles) roles []
    (by simp) (fun r hr => hr) p hp

theorem self_mem_keys_insertPair (m : List (Str × Str)) (k v : Str) :
    k ∈ dictKeys (insertPair m k v) := by
  rw [dictKeys_insertPair]
  by_cases hk : hasKey m k = true
  · rw [if_pos hk]
    exact (hasKey_iff_mem_keys m k).mp hk
  · rw [if_neg hk]
    exact List.mem_append_right _ (List.mem_singleton_self k)

theorem keys_mono_insertPair (m : List (Str × Str)) (k v k' : Str)
    (h : k' ∈ dictKeys m) : k' ∈ dictKeys (insertPair m k v) := by
  rw [dictKeys_insertPair]
  by_cases hk : hasKey m k = true
  · rw [if_pos hk]; exact h
  · rw [if_neg hk]; exact List.mem_append_left _ h

theorem mem_keys_buildDict (roles : List Str) (k : Str) :
    k ∈ dictKeys (buildDict roles) ↔ ∃ r ∈ roles, normalize_role r = k := by
  constructor
  · intro h
    unfold dictKeys at h
    rw [List.mem_map] at h
    rcases h with ⟨p, hp, hk⟩
    exact ⟨p.2, buildDict_val_mem roles p hp, hk ▸ buildDict_norm roles p hp⟩
  · rintro ⟨r, hr, rfl⟩
    unfold buildDict
    have main : ∀ (l : List Str) (m : List (Str × Str)), r ∈ l →
        normalize_role r ∈ dictKeys (l.foldl
          (fun m role => insertPair m (normalize_role role) role) m) := by
      intro l
      induction l with
      | nil => intro m hm; cases hm
      | cons a rest ih =>
        intro m hm
        rcases List.mem_cons.mp hm with h | h
        · subst h
          have base : normalize_role r ∈
              dictKeys (insertPair m (normalize_role r) r) :=
            self_mem_keys_insertPair m _ r
          have mono : ∀ (l' : List Str) (m' : List (Str × Str)),
              normalize_role r ∈ dictKeys m' →
              normalize_role r ∈ dictKeys (l'.foldl
                (fun m role => insertPair m (normalize_role role) role) m') := by
            intro l'
            induction l' with
            | nil => intro m' hm'; exact hm'
            | cons b rest' ih' =>
              intro m' hm'
              exact ih' _ (keys_mono_insertPair m' _ b _ hm')
          exact mono rest _ base
        · exact ih _ h
    exact main roles [] hr

theorem lookupD_eq_of_mem (m : List (Str × Str))
    (hnd : (dictKeys m).Nodup) (k v : Str) (h : (k, v) ∈ m) :
    lookupD m k = v := by
  induction m with
  | nil => cases h
  | cons p rest ih =>
    unfold lookupD
    rcases List.mem_cons.mp h with h' | h'
    · rw [← h']
      rw [if_pos rfl]
    · have hnd2 := hnd
      rw [show dictKeys (p :: rest) = p.1 :: dictKeys rest from rfl,
        List.nodup_cons] at hnd2
      have hk : k ∈ dictKeys rest := by
        unfold dictKeys
        rw [List.mem_map]
        exact ⟨(k, v), h', rfl⟩
      have hp1 : p.1 ≠ k := by
        intro hcon
        exact hnd2.1 (hcon ▸ hk)
      rw [if_neg hp1]
      exact ih hnd2.2 h'

theorem mem_of_lookupD (m : List (Str × Str)) (k : Str)
    (h : k ∈ dictKeys m) : (k, lookupD m k) ∈ m := by
  induction m with
  | nil => simp [dictKeys] at h
  | cons p rest ih =>
    unfold lookupD
    by_cases hp : p.1 = k
    · rw [if_pos hp]
      apply List.mem_cons.mpr
      left
      rw [← hp]
    · rw [if_neg hp]
      apply List.mem_cons.mpr
      right
      apply ih
      have h' : k = p.1 ∨ k ∈ dictKeys rest := by
        rw [show dictKeys (p :: rest) = p.1 :: dictKeys rest from rfl,
          List.mem_cons] at h
        exact h
      rcases h' with h' | h'
      · exact absurd h'.symm hp
      · exact h'

theorem lookupD_cons (p : Str × Str) (rest : List (Str × Str)) (k : Str) :
    lookupD (p :: rest) k = if p.1 = k then p.2 else lookupD rest k :=
  rfl

theorem hasKey_cons (p : Str × Str) (rest : List (Str × Str)) (k : Str) :
    hasKey (p :: rest) k = (decide (p.1 = k) || hasKey rest k) := by
  unfold hasKey
  rw [List.any_cons]

theorem hasKey_false_of_not (m : List (Str × Str)) (k : Str)
    (h : ¬ hasKey m k = true) : hasKey m k = false := by
  revert h
  cases hasKey m k <;> simp

theorem lookupD_map_update (m : List (Str × Str)) (k v : Str)
    (h : hasKey m k = true) :
    lookupD (m.map (fun p => if p.1 = k then (k, v) else p)) k = v := by
  induction m with
  | nil => simp [hasKey] at h
  | cons p rest ih =>
    by_cases hp : p.1 = k
    · rw [List.map_cons, if_pos hp]
      unfold lookupD
      rw [if_pos rfl]
    · rw [List.map_cons, if_neg hp]
      unfold lookupD
      rw [if_neg hp]
      apply ih
      unfold hasKey at h ⊢
      rw [List.any_cons] at h
      simpa [hp] using h

theorem lookupD_map_update_other (m : List (Str × Str)) (k v k' : Str)
    (h : k' ≠ k) :
    lookupD (m.map (fun p => if p.1 = k then (k, v) else p)) k' =
      lookupD m k' := by
  induction m with
  | nil => rfl
  | cons p rest ih =>
    by_cases hp : p.1 = k
    · rw [List.map_cons, if_pos hp]
      unfold lookupD
      rw [if_neg (fun hc => h hc.symm), if_neg (by rw [hp]; exact fun hc => h hc.symm)]
      exact ih
    · rw [List.map_cons, if_neg hp]
      unfold lookupD
      by_cases hpk : p.1 = k'
      · rw [if_pos hpk, if_pos hpk]
      · rw [if_neg hpk, if_neg hpk]
        exact ih

theorem lookupD_append_of_no_key (m₁ m₂ : List (Str × Str)) (k : Str)
    (h : hasKey m₁ k = false) :
    lookupD (m₁ ++ m₂) k = lookupD m₂ k := by
  induction m₁ with
  | nil => rfl
  | cons p rest ih =>
    rw [hasKey_cons] at h
    have hp : p.1 ≠ k := by
      intro hc
      simp [hc] at h
    rw [List.cons_append, lookupD_cons, if_neg hp]
    apply ih
    simpa [hp] using h

theorem lookupD_append_of_key (m₁ m₂ : List (Str × Str)) (k : Str)
    (h : hasKey m₁ k = true) :
    lookupD (m₁ ++ m₂) k = lookupD m₁ k := by
  induction m₁ with
  | nil => simp [hasKey] at h
  | cons p rest ih =>
    rw [List.cons_append, lookupD_cons, lookupD_cons]
    by_cases hp : p.1 = k
    · rw [if_pos hp, if_pos hp]
    · rw [if_neg hp, if_neg hp]
      apply ih
      rw [hasKey_cons] at h
      simpa [hp] using h

theorem lookupD_of_no_key (m : List (Str × Str)) (k : Str)
    (h : hasKey m k = false) : lookupD m k = [] := by
  induction m with
  | nil => rfl
  | cons p rest ih =>
    rw [hasKey_cons] at h
    have hp : p.1 ≠ k := by
      intro hc
      simp [hc] at h
    rw [lookupD_cons, if_neg hp]
    apply ih
    simpa [hp] using h

theorem lookupD_insertPair_self (m : List (Str × Str)) (k v : Str) :
    lookupD (insertPair m k v) k = v := by
  unfold insertPair
  by_cases h : m.any (fun p => decide (p.1 = k)) = true
  · rw [if_pos h]
    exact lookupD_map_update m k v h
  · rw [if_neg h]
    rw [lookupD_append_of_no_key m _ k (hasKey_false_of_not m k h),
      lookupD_cons, if_pos rfl]

theorem lookupD_insertPair_other (m : List (Str × Str)) (k v k' : Str)
    (h : k' ≠ k) : lookupD (insertPair m k v) k' = lookupD m k' := by
  unfold insertPair
  by_cases hk : m.any (fun p => decide (p.1 = k)) = true
  · rw [if_pos hk]
    exact lookupD_map_update_other m k v k' h
  · rw [if_neg hk]
    by_cases hk' : hasKey m k' = true
    · exact lookupD_append_of_key m _ k' hk'
    · rw [lookupD_append_of_no_key m _ k' (hasKey_false_of_not m k' hk'),
        lookupD_of_no_key m k' (hasKey_false_of_not m k' hk'),
        lookupD_cons, if_neg (fun hc => h hc.symm)]
      rfl

theorem buildDict_append (roles : List Str) (a : Str) :
    buildDict (roles ++ [a]) =
      insertPair (buildDict roles) (normalize_role a) a := by
  unfold buildDict
  rw [List.foldl_append]
  rfl

theorem buildDict_lookup_last (roles : List Str) (r : Str) (h : r ∈ roles) :
    (roles.filter
        (fun x => decide (normalize_role x = normalize_role r))).getLast? =
      some (lookupD (buildDict roles) (normalize_role r)) := by
  induction roles using List.reverseRecOn with
  | nil => cases h
  | append_singleton l a ih =>
    rw [buildDict_append, List.filter_append]
    by_cases hna : normalize_role a = normalize_role r
    · rw [← hna, lookupD_insertPair_self]
      have : List.filter
          (fun x => decide (normalize_role x = normalize_role r)) [a] = [a] := by
        simp [hna]
      rw [hna, this, List.getLast?_concat]
    · have hfa : List.filter
          (fun x => decide (normalize_role x = normalize_role r)) [a] = [] := by
        simp [hna]
      rw [hfa, List.append_nil,
        lookupD_insertPair_other _ _ _ _ (fun hc => hna hc.symm)]
      apply ih
      rcases List.mem_append.mp h with h' | h'
      · exact h'
      · rw [List.mem_singleton] at h'
        subst h'
        exact absurd rfl hna

/-! ### The sort order -/

theorem strLeb_total : ∀ a b : Str, strLeb a b = true ∨ strLeb b a = true := by
  intro a
  induction a with
  | nil => intro b; left; rfl
  | cons x xs ih =>
    intro b
    cases b with
    | nil => right; rfl
    | cons y ys =>
      unfold strLeb
      by_cases hxy : x = y
      · rw [if_pos hxy, if_pos hxy.symm]
        exact ih ys
      · rw [if_neg hxy, if_neg (Ne.symm hxy)]
        rcases lt_trichotomy x y with h | h | h
        · left; simpa using h
        · exact absurd h hxy
        · right; simpa using h

theorem strLeb_trans : ∀ a b c : Str, strLeb a b = true → strLeb b c = true →
    strLeb a c = true := by
  intro a
  induction a with
  | nil => intro b c _ _; rfl
  | cons x xs ih =>
    intro b c h1 h2
    cases b with
    | nil => simp [strLeb] at h1
    | cons y ys =>
      cases c with
      | nil => simp [strLeb] at h2
      | cons z zs =>
        unfold strLeb at h1 h2 ⊢
        by_cases hxy : x = y
        · rw [if_pos hxy] at h1
          by_cases hyz : y = z
          · rw [if_pos hyz] at h2
            rw [if_pos (hxy.trans hyz)]
            exact ih ys zs h1 h2
          · rw [if_neg hyz] at h2
            have hlt : y < z := by simpa using h2
            have hxz : x < z := hxy ▸ hlt
            rw [if_neg (ne_of_lt hxz)]
            simpa using hxz
        · rw [if_neg hxy] at h1
          have hlt : x < y := by simpa using h1
          by_cases hyz : y = z
          · have hxz : x < z := hyz ▸ hlt
            rw [if_neg (ne_of_lt hxz)]
            simpa using hxz
          · rw [if_neg hyz] at h2
            have hlt2 : y < z := by simpa using h2
            have hxz : x < z := lt_trans hlt hlt2
            rw [if_neg (ne_of_lt hxz)]
            simpa using hxz

instance : IsTotal Str StrLe :=
  ⟨fun a b => strLeb_total a b⟩

instance : IsTrans Str StrLe :=
  ⟨fun a b c => strLeb_trans a b c⟩

theorem sortStr_perm (l : List Str) : List.Perm (sortStr l) l :=
  List.perm_insertionSort StrLe l

theorem sortStr_sorted (l : List Str) : List.Sorted StrLe (sortStr l) :=
  List.sorted_insertionSort StrLe l

theorem sortStr_nodup (l : List Str) (h : l.Nodup) : (sortStr l).Nodup :=
  (sortStr_perm l).symm.nodup h

theorem mem_sortStr (l : List Str) (x : Str) : x ∈ sortStr l ↔ x ∈ l :=
  (sortStr_perm l).mem_iff

theorem sortStr_eq_nil_iff (l : List Str) : sortStr l = [] ↔ l = [] := by
  constructor
  · intro h
    have hp := (sortStr_perm l).symm
    rw [h] at hp
    exact hp.eq_nil
  · intro h
    subst h
    rfl

theorem mem_setInsert (x y : Str) (s : List Str) :
    y ∈ setInsert x s ↔ y = x ∨ y ∈ s := by
  unfold setInsert
  by_cases h : x ∈ s
  · rw [if_pos h]
    constructor
    · exact Or.inr
    · rintro (rfl | hy)
      · exact h
      · exact hy
  · rw [if_neg h]
    rw [List.mem_append, List.mem_singleton]
    tauto

theorem nodup_setInsert (x : Str) (s : List Str) (h : s.Nodup) :
    (setInsert x s).Nodup := by
  unfold setInsert
  by_cases hx : x ∈ s
  · rw [if_pos hx]
    exact h
  · rw [if_neg hx]
    rw [List.nodup_append]
    refine ⟨h, List.nodup_singleton x, ?_⟩
    intro a ha hb
    rw [List.mem_singleton] at hb
    subst hb
    exact hx ha

theorem normalize_normalize (s : Str) :
    normalize_role (normalize_role s) = stripWS (normalize_role s) := by
  have h1 : lowerStr (normalize_role s) = normalize_role s := by
    unfold lowerStr
    rw [List.map_congr_left (fun c hc => norm_toLower_fixed s c hc)]
    exact List.map_id _
  have hsub : stripWS (normalize_role s) ⊆ normalize_role s :=
    stripWS_subset _
  have h2 : removeNonWord (stripWS (normalize_role s)) =
      stripWS (normalize_role s) := by
    unfold removeNonWord
    rw [List.filter_eq_self]
    intro a ha
    exact norm_word_or_space s a (hsub ha)
  show collapseWS (removeNonWord (stripWS (lowerStr (normalize_role s)))) =
    stripWS (normalize_role s)
  rw [h1, h2]
  apply collapseWS_eq_self
  · exact List.Chain'.infix (norm_chain s) (stripWS_infix_self _)
  · intro c hc hsp
    exact norm_space_is_blank s c (hsub hc) hsp


/-! ### The direct pass -/

theorem dstep_pos (xd : List (Str × Str)) (acc : List Str × List Str)
    (p : Str × Str) (h : hasKey xd p.1 = true) :
    dstep xd acc p = (setInsert (lookupD xd p.1) acc.1, acc.2) := by
  unfold dstep
  rw [if_pos h]

theorem dstep_neg (xd : List (Str × Str)) (acc : List Str × List Str)
    (p : Str × Str) (h : hasKey xd p.1 = false) :
    dstep xd acc p = (acc.1, acc.2 ++ [p.1]) := by
  unfold dstep
  rw [if_neg (by simp [h])]

theorem foldl_dstep_snd (xd : List (Str × Str)) :
    ∀ (items : List (Str × Str)) (acc : List Str × List Str),
      (items.foldl (dstep xd) acc).2 =
        acc.2 ++ ((items.filter (fun p => !hasKey xd p.1)).map Prod.fst) := by
  intro items
  induction items with
  | nil => intro acc; simp
  | cons p rest ih =>
    intro acc
    rw [List.foldl_cons]
    by_cases h : hasKey xd p.1 = true
    · rw [dstep_pos xd acc p h, ih]
      rw [List.filter_cons]
      simp [h]
    · have hf : hasKey xd p.1 = false := hasKey_false_of_not _ _ h
      rw [dstep_neg xd acc p hf, ih]
      rw [List.filter_cons]
      simp [hf]

theorem foldl_dstep_fst_mem (xd : List (Str × Str)) :
    ∀ (items : List (Str × Str)) (acc : List Str × List Str) (v : Str),
      v ∈ (items.foldl (dstep xd) acc).1 ↔
        v ∈ acc.1 ∨
          ∃ p ∈ items, hasKey xd p.1 = true ∧ v = lookupD xd p.1 := by
  intro items
  induction items with
  | nil => intro acc v; simp
  | cons p rest ih =>
    intro acc v
    rw [List.foldl_cons, List.exists_mem_cons_iff]
    by_cases h : hasKey xd p.1 = true
    · rw [dstep_pos xd acc p h, ih, mem_setInsert]
      simp only [h, true_and]
      tauto
    · have hf : hasKey xd p.1 = false := hasKey_false_of_not _ _ h
      rw [dstep_neg xd acc p hf, ih]
      simp only [hf]
      tauto

theorem foldl_dstep_fst_nodup (xd : List (Str × Str)) :
    ∀ (items : List (Str × Str)) (acc : List Str × List Str),
      acc.1.Nodup → (items.foldl (dstep xd) acc).1.Nodup := by
  intro items
  induction items with
  | nil => intro acc h; exact h
  | cons p rest ih =>
    intro acc hacc
    rw [List.foldl_cons]
    by_cases h : hasKey xd p.1 = true
    · rw [dstep_pos xd acc p h]
      exact ih _ (nodup_setInsert _ _ hacc)
    · rw [dstep_neg xd acc p (hasKey_false_of_not _ _ h)]
      exact ih _ hacc

theorem directPass_snd_eq (xd : List (Str × Str)) (items : List (Str × Str)) :
    (directPass xd items).2 =
      (items.filter (fun p => !hasKey xd p.1)).map Prod.fst := by
  unfold directPass
  rw [foldl_dstep_snd]
  rfl

theorem directPass_fst_mem (xd : List (Str × Str)) (items : List (Str × Str))
    (v : Str) :
    v ∈ (directPass xd items).1 ↔
      ∃ p ∈ items, hasKey xd p.1 = true ∧ v = lookupD xd p.1 := by
  unfold directPass
  rw [foldl_dstep_fst_mem]
  simp

theorem directPass_fst_nodup (xd : List (Str × Str))
    (items : List (Str × Str)) : (directPass xd items).1.Nodup := by
  unfold directPass
  exact foldl_dstep_fst_nodup xd items ([], []) (by simp)

/-! ### The fuzzy pass -/

theorem findFuzzy_eq_find? (F : FuzzyFns) (th : Nat) (o : Str) :
    ∀ l : List Str, findFuzzy F th o l =
      l.find? (fun x => fuzzy_match F o x th || fuzzy_part_match F o x th) := by
  intro l
  induction l with
  | nil => rfl
  | cons a rest ih =>
    unfold findFuzzy
    by_cases h1 : fuzzy_match F o a th = true
    · rw [if_pos h1, List.find?_cons_of_pos _ (by simp [h1])]
    · rw [if_neg (by simp [h1])]
      by_cases h2 : fuzzy_part_match F o a th = true
      · rw [if_pos h2, List.find?_cons_of_pos _ (by simp [h2])]
      · rw [if_neg (by simp [h2]),
          List.find?_cons_of_neg _ (by simp [h1, h2])]
        exact ih

theorem findFuzzy_mem (F : FuzzyFns) (th : Nat) (o x : Str) (l : List Str)
    (h : findFuzzy F th o l = some x) : x ∈ l := by
  rw [findFuzzy_eq_find?] at h
  exact List.mem_of_find?_eq_some h

theorem fuzzy_match_mono (F : FuzzyFns) (a b : Str) (th th' : Nat)
    (hle : th' ≤ th) (h : fuzzy_match F a b th = true) :
    fuzzy_match F a b th' = true := by
  unfold fuzzy_match at h ⊢
  rw [decide_eq_true_eq] at h ⊢
  omega

theorem fuzzy_part_match_mono (F : FuzzyFns) (a b : Str) (th th' : Nat)
    (hle : th' ≤ th) (h : fuzzy_part_match F a b th = true) :
    fuzzy_part_match F a b th' = true := by
  unfold fuzzy_part_match at h ⊢
  rw [decide_eq_true_eq] at h ⊢
  omega

theorem findFuzzy_mono (F : FuzzyFns) (o : Str) (th th' : Nat)
    (hle : th' ≤ th) :
    ∀ l : List Str, (∃ x, findFuzzy F th o l = some x) →
      ∃ y, findFuzzy F th' o l = some y := by
  intro l
  induction l with
  | nil => rintro ⟨x, hx⟩; cases hx
  | cons a rest ih =>
    rintro ⟨x, hx⟩
    unfold findFuzzy at hx ⊢
    by_cases h1 : fuzzy_match F o a th' = true
    · rw [if_pos h1]
      exact ⟨a, rfl⟩
    · rw [if_neg (by simp [h1])]
      by_cases h2 : fuzzy_part_match F o a th' = true
      · rw [if_pos h2]
        exact ⟨a, rfl⟩
      · rw [if_neg (by simp [h2])]
        have h1' : fuzzy_match F o a th = false := by
          by_contra hc
          exact h1 (fuzzy_match_mono F o a th th' hle
            (by revert hc; cases fuzzy_match F o a th <;> simp))
        have h2' : fuzzy_part_match F o a th = false := by
          by_contra hc
          exact h2 (fuzzy_part_match_mono F o a th th' hle
            (by revert hc; cases fuzzy_part_match F o a th <;> simp))
        rw [if_neg (by simp [h1']), if_neg (by simp [h2'])] at hx
        exact ih ⟨x, hx⟩

theorem fstep_some (F : FuzzyFns) (th : Nat) (xml : List Str)
    (pd : List (Str × Str)) (st : FuzzyState) (norm x : Str)
    (h : findFuzzy F th (lookupD pd norm) xml = some x) :
    fstep F th xml pd st norm =
      { st with
        matched := setInsert x st.matched
        fuzzy_map := st.fuzzy_map ++ [(lookupD pd norm, x)] } := by
  simp only [fstep, h]

theorem fstep_none (F : FuzzyFns) (th : Nat) (xml : List Str)
    (pd : List (Str × Str)) (st : FuzzyState) (norm : Str)
    (h : findFuzzy F th (lookupD pd norm) xml = none) :
    fstep F th xml pd st norm =
      { st with still_incorrect := st.still_incorrect ++ [norm] } := by
  simp only [fstep, h]

theorem foldl_fstep_fuzzy (F : FuzzyFns) (th : Nat) (xml : List Str)
    (pd : List (Str × Str)) :
    ∀ (pot : List Str) (st : FuzzyState),
      (pot.foldl (fstep F th xml pd) st).fuzzy_map =
        st.fuzzy_map ++ pot.filterMap
          (fun n => (findFuzzy F th (lookupD pd n) xml).map
            (fun x => (lookupD pd n, x))) := by
  intro pot
  induction pot with
  | nil => intro st; simp
  | cons n rest ih =>
    intro st
    rw [List.foldl_cons]
    rcases hf : findFuzzy F th (lookupD pd n) xml with _ | x
    · rw [fstep_none F th xml pd st n hf, ih,
        List.filterMap_cons_none (by simp [hf])]
    · rw [fstep_some F th xml pd st n x hf, ih,
        List.filterMap_cons_some (f := fun n =>
          (findFuzzy F th (lookupD pd n) xml).map (fun x => (lookupD pd n, x)))
          (b := (lookupD pd n, x)) (by simp [hf])]
      simp

theorem foldl_fstep_still (F : FuzzyFns) (th : Nat) (xml : List Str)
    (pd : List (Str × Str)) :
    ∀ (pot : List Str) (st : FuzzyState),
      (pot.foldl (fstep F th xml pd) st).still_incorrect =
        st.still_incorrect ++ pot.filter
          (fun n => (findFuzzy F th (lookupD pd n) xml).isNone) := by
  intro pot
  induction pot with
  | nil => intro st; simp
  | cons n rest ih =>
    intro st
    rw [List.foldl_cons]
    rcases hf : findFuzzy F th (lookupD pd n) xml with _ | x
    · rw [fstep_none F th xml pd st n hf, ih, List.filter_cons]
      simp [hf]
    · rw [fstep_some F th xml pd st n x hf, ih, List.filter_cons]
      simp [hf]

theorem foldl_fstep_matched_mem (F : FuzzyFns) (th : Nat) (xml : List Str)
    (pd : List (Str × Str)) :
    ∀ (pot : List Str) (st : FuzzyState) (v : Str),
      v ∈ (pot.foldl (fstep F th xml pd) st).matched ↔
        v ∈ st.matched ∨
          ∃ n ∈ pot, findFuzzy F th (lookupD pd n) xml = some v := by
  intro pot
  induction pot with
  | nil => intro st v; simp
  | cons n rest ih =>
    intro st v
    rw [List.foldl_cons, List.exists_mem_cons_iff]
    rcases hf : findFuzzy F th (lookupD pd n) xml with _ | x
    · rw [fstep_none F th xml pd st n hf, ih]
      simp [hf]
    · rw [fstep_some F th xml pd st n x hf, ih]
      show v ∈ setInsert x st.matched ∨ _ ↔ _
      rw [mem_setInsert]
      simp only [hf, Option.some.injEq]
      constructor
      · rintro ((rfl | hv) | hrest)
        · exact Or.inr (Or.inl rfl)
        · exact Or.inl hv
        · exact Or.inr (Or.inr hrest)
      · rintro (hv | (rfl | hrest))
        · exact Or.inl (Or.inr hv)
        · exact Or.inl (Or.inl rfl)
        · exact Or.inr hrest

theorem foldl_fstep_matched_nodup (F : FuzzyFns) (th : Nat) (xml : List Str)
    (pd : List (Str × Str)) :
    ∀ (pot : List Str) (st : FuzzyState), st.matched.Nodup →
      (pot.foldl (fstep F th xml pd) st).matched.Nodup := by
  intro pot
  induction pot with
  | nil => intro st h; exact h
  | cons n rest ih =>
    intro st hst
    rw [List.foldl_cons]
    rcases hf : findFuzzy F th (lookupD pd n) xml with _ | x
    · rw [fstep_none F th xml pd st n hf]
      exact ih _ hst
    · rw [fstep_some F th xml pd st n x hf]
      exact ih _ (nodup_setInsert _ _ hst)

/-! ### Characterization of compare_roles -/

theorem compare_roles_fuzzy_eq (F : FuzzyFns) (th : Nat)
    (xml pdf : List Str) :
    (compare_roles F th xml pdf).fuzzy_matches =
      (unresolvedKeys xml pdf).filterMap
        (fun n => (findFuzzy F th (lookupD (buildDict pdf) n) xml).map
          (fun x => (lookupD (buildDict pdf) n, x))) := by
  show (fuzzyPass F th xml (buildDict pdf)
      (directPass (buildDict xml) (buildDict pdf)).1
      (directPass (buildDict xml) (buildDict pdf)).2).fuzzy_map = _
  unfold fuzzyPass
  rw [foldl_fstep_fuzzy, directPass_snd_eq]
  rw [show (⟨(directPass (buildDict xml) (buildDict pdf)).1, [], []⟩ :
    FuzzyState).fuzzy_map = [] from rfl]
  rw [List.nil_append]
  rfl

theorem compare_roles_still_eq (F : FuzzyFns) (th : Nat)
    (xml pdf : List Str) :
    (fuzzyPass F th xml (buildDict pdf)
        (directPass (buildDict xml) (buildDict pdf)).1
        (directPass (buildDict xml) (buildDict pdf)).2).still_incorrect =
      (unresolvedKeys xml pdf).filter
        (fun n => (findFuzzy F th (lookupD (buildDict pdf) n) xml).isNone) := by
  unfold fuzzyPass
  rw [foldl_fstep_still, directPass_snd_eq]
  rw [show (⟨(directPass (buildDict xml) (buildDict pdf)).1, [], []⟩ :
    FuzzyState).still_incorrect = [] from rfl]
  rw [List.nil_append]
  rfl

theorem compare_roles_incorrect_eq (F : FuzzyFns) (th : Nat)
    (xml pdf : List Str) :
    (compare_roles F th xml pdf).incorrect_pdf_roles =
      sortStr (((unresolvedKeys xml pdf).filter
        (fun n => (findFuzzy F th (lookupD (buildDict pdf) n) xml).isNone)).map
        (lookupD (buildDict pdf))) := by
  show sortStr ((fuzzyPass F th xml (buildDict pdf)
      (directPass (buildDict xml) (buildDict pdf)).1
      (directPass (buildDict xml) (buildDict pdf)).2).still_incorrect.map
        (lookupD (buildDict pdf))) = _
  rw [compare_roles_still_eq]

theorem compare_roles_is_incorrect_eq (F : FuzzyFns) (th : Nat)
    (xml pdf : List Str) :
    (compare_roles F th xml pdf).is_incorrect =
      !((unresolvedKeys xml pdf).filter
        (fun n => (findFuzzy F th (lookupD (buildDict pdf) n) xml).isNone)).isEmpty := by
  show (!(fuzzyPass F th xml (buildDict pdf)
      (directPass (buildDict xml) (buildDict pdf)).1
      (directPass (buildDict xml) (buildDict pdf)).2).still_incorrect.isEmpty) = _
  rw [compare_roles_still_eq]

theorem compare_roles_matched_mem (F : FuzzyFns) (th : Nat)
    (xml pdf : List Str) (v : Str) :
    v ∈ (compare_roles F th xml pdf).matched_roles ↔
      (∃ p ∈ buildDict pdf, hasKey (buildDict xml) p.1 = true ∧
        v = lookupD (buildDict xml) p.1) ∨
      (∃ n ∈ unresolvedKeys xml pdf,
        findFuzzy F th (lookupD (buildDict pdf) n) xml = some v) := by
  show v ∈ sortStr (fuzzyPass F th xml (buildDict pdf)
      (directPass (buildDict xml) (buildDict pdf)).1
      (directPass (buildDict xml) (buildDict pdf)).2).matched ↔ _
  rw [mem_sortStr]
  unfold fuzzyPass
  rw [foldl_fstep_matched_mem]
  rw [show (⟨(directPass (buildDict xml) (buildDict pdf)).1, [], []⟩ :
    FuzzyState).matched = (directPass (buildDict xml) (buildDict pdf)).1
    from rfl]
  rw [directPass_fst_mem, directPass_snd_eq]
  rfl

theorem compare_roles_matched_nodup (F : FuzzyFns) (th : Nat)
    (xml pdf : List Str) :
    (compare_roles F th xml pdf).matched_roles.Nodup := by
  show (sortStr (fuzzyPass F th xml (buildDict pdf)
      (directPass (buildDict xml) (buildDict pdf)).1
      (directPass (buildDict xml) (buildDict pdf)).2).matched).Nodup
  apply sortStr_nodup
  unfold fuzzyPass
  apply foldl_fstep_matched_nodup
  show (directPass (buildDict xml) (buildDict pdf)).1.Nodup
  exact directPass_fst_nodup _ _

theorem compare_roles_matched_sorted (F : FuzzyFns) (th : Nat)
    (xml pdf : List Str) :
    List.Sorted StrLe (compare_roles F th xml pdf).matched_roles := by
  show List.Sorted StrLe (sortStr (fuzzyPass F th xml (buildDict pdf)
      (directPass (buildDict xml) (buildDict pdf)).1
      (directPass (buildDict xml) (buildDict pdf)).2).matched)
  exact sortStr_sorted _

theorem compare_roles_incorrect_sorted (F : FuzzyFns) (th : Nat)
    (xml pdf : List Str) :
    List.Sorted StrLe (compare_roles F th xml pdf).incorrect_pdf_roles := by
  rw [compare_roles_incorrect_eq]
  exact sortStr_sorted _

/-! ### Facts about the unresolved keys -/

theorem unresolvedKeys_sub_dictKeys (xml pdf : List Str) (n : Str)
    (h : n ∈ unresolvedKeys xml pdf) : n ∈ dictKeys (buildDict pdf) := by
  unfold unresolvedKeys at h
  rw [List.mem_map] at h
  rcases h with ⟨p, hp, rfl⟩
  unfold dictKeys
  rw [List.mem_map]
  exact ⟨p, (List.mem_filter.mp hp).1, rfl⟩

theorem unresolvedKeys_nodup (xml pdf : List Str) :
    (unresolvedKeys xml pdf).Nodup := by
  unfold unresolvedKeys
  have hsub : ((buildDict pdf).filter
      (fun p => !hasKey (buildDict xml) p.1)).map Prod.fst |>.Sublist
        (dictKeys (buildDict pdf)) := by
    unfold dictKeys
    exact (List.filter_sublist _).map Prod.fst
  exact hsub.nodup (buildDict_keys_nodup pdf)

theorem unresolvedKeys_no_xml_key (xml pdf : List Str) (n : Str)
    (h : n ∈ unresolvedKeys xml pdf) :
    hasKey (buildDict xml) n = false := by
  unfold unresolvedKeys at h
  rw [List.mem_map] at h
  rcases h with ⟨p, hp, rfl⟩
  have := (List.mem_filter.mp hp).2
  revert this
  cases hasKey (buildDict xml) p.1 <;> simp

theorem mem_unresolvedKeys_of_key (xml pdf : List Str) (n : Str)
    (hk : n ∈ dictKeys (buildDict pdf))
    (hx : hasKey (buildDict xml) n = false) :
    n ∈ unresolvedKeys xml pdf := by
  unfold dictKeys at hk
  rw [List.mem_map] at hk
  rcases hk with ⟨p, hp, rfl⟩
  unfold unresolvedKeys
  rw [List.mem_map]
  exact ⟨p, List.mem_filter.mpr ⟨hp, by simp [hx]⟩, rfl⟩

/-! ### Looking up a key of a built dict -/

theorem lookup_key_norm (roles : List Str) (k : Str)
    (h : k ∈ dictKeys (buildDict roles)) :
    normalize_role (lookupD (buildDict roles) k) = k :=
  buildDict_norm roles _ (mem_of_lookupD _ k h)

theorem lookup_key_mem (roles : List Str) (k : Str)
    (h : k ∈ dictKeys (buildDict roles)) :
    lookupD (buildDict roles) k ∈ roles :=
  buildDict_val_mem roles _ (mem_of_lookupD _ k h)

/-! ### Derived facts used by several claims -/

theorem filterMap_congr_mem {α β : Type} (f g : α → Option β) :
    ∀ l : List α, (∀ a ∈ l, f a = g a) →
      l.filterMap f = l.filterMap g := by
  intro l
  induction l with
  | nil => intro _; rfl
  | cons a rest ih =>
    intro h
    have ha := h a (List.mem_cons_self _ _)
    have hrest := ih (fun x hx => h x (List.mem_cons_of_mem _ hx))
    rcases hg : g a with _ | b
    · rw [List.filterMap_cons_none (by rw [ha, hg]),
        List.filterMap_cons_none hg, hrest]
    · rw [List.filterMap_cons_some (by rw [ha, hg]),
        List.filterMap_cons_some hg, hrest]

theorem nodup_filterMap_of_id (f : Str → Option Str) :
    ∀ l : List Str, (∀ n ∈ l, ∀ b, f n = some b → b = n) → l.Nodup →
      (l.filterMap f).Nodup := by
  intro l
  induction l with
  | nil => intro _ _; simp
  | cons n rest ih =>
    intro hf hnd
    rcases List.nodup_cons.mp hnd with ⟨hnin, hnd'⟩
    have hrest := ih (fun x hx => hf x (List.mem_cons_of_mem _ hx)) hnd'
    rcases hfn : f n with _ | b
    · rw [List.filterMap_cons_none hfn]
      exact hrest
    · have hb : b = n := hf n (List.mem_cons_self _ _) b hfn
      subst hb
      rw [List.filterMap_cons_some hfn]
      rw [List.nodup_cons]
      refine ⟨?_, hrest⟩
      intro hmem
      rw [List.mem_filterMap] at hmem
      rcases hmem with ⟨m, hm, hfm⟩
      have : b = m := hf m (List.mem_cons_of_mem _ hm) b hfm
      subst this
      exact hnin hm

theorem compare_roles_incorrect_mem (F : FuzzyFns) (th : Nat)
    (xml pdf : List Str) (v : Str) :
    v ∈ (compare_roles F th xml pdf).incorrect_pdf_roles ↔
      ∃ n ∈ unresolvedKeys xml pdf,
        (findFuzzy F th (lookupD (buildDict pdf) n) xml) = none ∧
        v = lookupD (buildDict pdf) n := by
  rw [compare_roles_incorrect_eq, mem_sortStr, List.mem_map]
  constructor
  · rintro ⟨n, hn, rfl⟩
    rcases List.mem_filter.mp hn with ⟨hmem, hnone⟩
    refine ⟨n, hmem, ?_, rfl⟩
    rcases h : findFuzzy F th (lookupD (buildDict pdf) n) xml with _ | x
    · rfl
    · rw [h] at hnone
      simp at hnone
  · rintro ⟨n, hmem, hnone, rfl⟩
    exact ⟨n, List.mem_filter.mpr ⟨hmem, by simp [hnone]⟩, rfl⟩

theorem compare_roles_is_incorrect_iff (F : FuzzyFns) (th : Nat)
    (xml pdf : List Str) :
    (compare_roles F th xml pdf).is_incorrect = true ↔
      (compare_roles F th xml pdf).incorrect_pdf_roles ≠ [] := by
  rw [compare_roles_is_incorrect_eq, compare_roles_incorrect_eq]
  by_cases hf : (unresolvedKeys xml pdf).filter
      (fun n => (findFuzzy F th (lookupD (buildDict pdf) n) xml).isNone) = []
  · rw [hf]
    constructor
    · intro h
      simp at h
    · intro h
      exact absurd rfl h
  · constructor
    · intro _ hnil
      rw [sortStr_eq_nil_iff, List.map_eq_nil_iff] at hnil
      exact hf hnil
    · intro _
      rcases List.exists_mem_of_ne_nil _ hf with ⟨n, hn⟩
      have : ¬ ((unresolvedKeys xml pdf).filter
          (fun n => (findFuzzy F th (lookupD (buildDict pdf) n) xml).isNone)).isEmpty = true := by
        rw [List.isEmpty_iff]
        exact hf
      revert this
      cases ((unresolvedKeys xml pdf).filter
        (fun n => (findFuzzy F th (lookupD (buildDict pdf) n) xml).isNone)).isEmpty <;> simp

theorem compare_roles_incorrect_nodup (F : FuzzyFns) (th : Nat)
    (xml pdf : List Str) :
    (compare_roles F th xml pdf).incorrect_pdf_roles.Nodup := by
  rw [compare_roles_incorrect_eq]
  apply sortStr_nodup
  have hknd : ((unresolvedKeys xml pdf).filter
      (fun n => (findFuzzy F th (lookupD (buildDict pdf) n) xml).isNone)).Nodup :=
    (List.filter_sublist _).nodup (unresolvedKeys_nodup xml pdf)
  apply List.Nodup.map_on ?_ hknd
  intro x hx y hy hxy
  have hx' : x ∈ dictKeys (buildDict pdf) :=
    unresolvedKeys_sub_dictKeys _ _ _ (List.mem_of_mem_filter hx)
  have hy' : y ∈ dictKeys (buildDict pdf) :=
    unresolvedKeys_sub_dictKeys _ _ _ (List.mem_of_mem_filter hy)
  calc x = normalize_role (lookupD (buildDict pdf) x) :=
        (lookup_key_norm _ _ hx').symm
    _ = normalize_role (lookupD (buildDict pdf) y) := by rw [hxy]
    _ = y := lookup_key_norm _ _ hy'

theorem matched_mem_xml_roles (F : FuzzyFns) (th : Nat) (xml pdf : List Str)
    (v : Str) (h : v ∈ (compare_roles F th xml pdf).matched_roles) :
    v ∈ xml := by
  rcases (compare_roles_matched_mem F th xml pdf v).mp h with
    ⟨p, hp, hk, rfl⟩ | ⟨n, _, hfind⟩
  · exact buildDict_val_mem xml _
      (mem_of_lookupD _ p.1 ((hasKey_iff_mem_keys _ _).mp hk))
  · exact findFuzzy_mem F th _ _ xml hfind

theorem fuzzy_pair_matched (F : FuzzyFns) (th : Nat) (xml pdf : List Str) :
    ∀ pr ∈ (compare_roles F th xml pdf).fuzzy_matches,
      pr.2 ∈ (compare_roles F th xml pdf).matched_roles := by
  intro pr hpr
  rw [compare_roles_fuzzy_eq] at hpr
  rw [List.mem_filterMap] at hpr
  rcases hpr with ⟨n, hn, hfn⟩
  rcases hx : findFuzzy F th (lookupD (buildDict pdf) n) xml with _ | x
  · rw [hx] at hfn
    cases hfn
  · rw [hx] at hfn
    have hpr2 : pr.2 = x := by
      rw [show Option.map (fun x => (lookupD (buildDict pdf) n, x)) (some x) =
        some (lookupD (buildDict pdf) n, x) from rfl] at hfn
      rw [Option.some.injEq] at hfn
      rw [← hfn]
    rw [compare_roles_matched_mem]
    right
    exact ⟨n, hn, by rw [hx, hpr2]⟩

theorem matched_not_incorrect (F : FuzzyFns) (th : Nat) (xml pdf : List Str) :
    ∀ v ∈ (compare_roles F th xml pdf).matched_roles,
      v ∉ (compare_roles F th xml pdf).incorrect_pdf_roles := by
  intro v hv hinc
  rcases (compare_roles_incorrect_mem F th xml pdf v).mp hinc with
    ⟨n, hn, _, hveq⟩
  have hndict : n ∈ dictKeys (buildDict pdf) :=
    unresolvedKeys_sub_dictKeys _ _ _ hn
  have hnorm : normalize_role v = n := by
    rw [hveq]
    exact lookup_key_norm _ _ hndict
  have hxmlmem : v ∈ xml := matched_mem_xml_roles F th xml pdf v hv
  have hkey : normalize_role v ∈ dictKeys (buildDict xml) :=
    (mem_keys_buildDict xml _).mpr ⟨v, hxmlmem, rfl⟩
  have htrue : hasKey (buildDict xml) n = true := by
    rw [← hnorm]
    exact (hasKey_iff_mem_keys _ _).mpr hkey
  rw [unresolvedKeys_no_xml_key xml pdf n hn] at htrue
  cases htrue

/-! ### The fuzzy pass seen from the specification side -/

theorem fuzzy_pass_spec_eq (F : FuzzyFns) (th : Nat) (xml pdf : List Str) :
    (compare_roles F th xml pdf).fuzzy_matches = fuzzyPassSpec F th xml pdf := by
  rw [compare_roles_fuzzy_eq]
  unfold unresolvedKeys fuzzyPassSpec
  rw [List.filterMap_map]
  apply filterMap_congr_mem
  intro p hp
  have hpd : p ∈ buildDict pdf := List.mem_of_mem_filter hp
  have hlk : lookupD (buildDict pdf) p.1 = p.2 :=
    lookupD_eq_of_mem _ (buildDict_keys_nodup pdf) p.1 p.2 hpd
  show (findFuzzy F th (lookupD (buildDict pdf) p.1) xml).map
      (fun x => (lookupD (buildDict pdf) p.1, x)) =
    (firstFuzzyHit F th p.2 xml).map (fun x => (p.2, x))
  rw [hlk, findFuzzy_eq_find?]
  rfl

/-! ### The claims -/

/-- C1: in `compare_roles`, for every PDF role still unresolved after the
direct pass, the XML roles are scanned in their original input order, testing
whole-string `fuzzy_match` before `fuzzy_partial_match` on the raw
non-normalized strings; the scan stops at the first candidate passing either
test, recording that XML role in the matched set and the pair
(original PDF spelling, original XML spelling) in the fuzzy map (first-fit,
never best-fit). -/
theorem fuzzy_pass_first_fit (F : FuzzyFns) (th : Nat) (xml pdf : List Str) :
    (compare_roles F th xml pdf).fuzzy_matches = fuzzyPassSpec F th xml pdf ∧
    ∀ pr ∈ (compare_roles F th xml pdf).fuzzy_matches,
      pr.2 ∈ (compare_roles F th xml pdf).matched_roles :=
  ⟨fuzzy_pass_spec_eq F th xml pdf, fuzzy_pair_matched F th xml pdf⟩

/-- C2: what the code actually computes on the two docstring examples.
`normalize_role("Software Engineer!")` is `"software engineer"` as documented,
but `normalize_role("  Senior-Developer  ")` is `"seniordeveloper"`: the
hyphen is deleted by the punctuation-stripping step without inserting a
space, contradicting the documented value `"senior developer"`. -/
theorem normalize_role_code_values :
    normalize_role "Software Engineer!".data = "software engineer".data ∧
    normalize_role "  Senior-Developer  ".data = "seniordeveloper".data ∧
    decide (normalize_role "  Senior-Developer  ".data =
      "senior developer".data) = false := by
  refine ⟨by decide, by decide, by decide⟩

/-- C3 counterexample: normalization is not idempotent.  On `"- a"` the
hyphen is stripped after the whitespace trim, exposing a leading space that
the collapse step keeps, so `normalize_role "- a" = " a"` while applying
`normalize_role` again strips that space. -/
theorem normalize_role_not_idempotent :
    normalize_role "- a".data = " a".data ∧
    normalize_role (normalize_role "- a".data) = "a".data ∧
    decide (normalize_role (normalize_role "- a".data) =
      normalize_role "- a".data) = false := by
  refine ⟨by decide, by decide, by decide⟩

/-- C3 (amended): applying `normalize_role` twice equals stripping the
whitespace of a single application; normalization is idempotent exactly up to
the leading/trailing space that punctuation removal can re-expose. -/
theorem normalize_role_idempotent_up_to_strip (s : Str) :
    normalize_role (normalize_role s) = stripWS (normalize_role s) :=
  normalize_normalize s

/-- C4 counterexample: the XML index maps the normalized key `"manager"`
built from `["Manager", "MANAGER"]` to the last-seen spelling `"MANAGER"`,
not the first-seen `"Manager"`. -/
theorem xml_index_not_first_seen :
    lookupD (buildDict ["Manager".data, "MANAGER".data]) "manager".data =
      "MANAGER".data ∧
    decide (lookupD (buildDict ["Manager".data, "MANAGER".data])
      "manager".data = "Manager".data) = false := by
  refine ⟨by decide, by decide⟩

/-- C4 (amended): the XML index built by the dict comprehension maps every
distinct normalized key to the LAST-seen original role string with that key;
a later duplicate with the same key replaces the recorded spelling. -/
theorem xml_index_last_seen (roles : List Str) (r : Str) (h : r ∈ roles) :
    (roles.filter
        (fun x => decide (normalize_role x = normalize_role r))).getLast? =
      some (lookupD (buildDict roles) (normalize_role r)) :=
  buildDict_lookup_last roles r h

/-- C4 witness: the amended statement applied to `["Manager", "MANAGER"]`. -/
theorem xml_index_last_seen_witness :
    "Manager".data ∈ ["Manager".data, "MANAGER".data] ∧
    (["Manager".data, "MANAGER".data].filter
        (fun x => decide (normalize_role x = normalize_role "Manager".data))).getLast? =
      some (lookupD (buildDict ["Manager".data, "MANAGER".data])
        (normalize_role "Manager".data)) :=
  ⟨by decide, xml_index_last_seen ["Manager".data, "MANAGER".data]
    "Manager".data (by decide)⟩

/-- C5: `is_incorrect` is true exactly when `incorrect_pdf_roles` is
non-empty, and both the matched list and the incorrect list are returned
deduplicated and sorted ascending in the code-point string order used by
Python `sorted`. -/
theorem compare_roles_result_shape (F : FuzzyFns) (th : Nat)
    (xml pdf : List Str) :
    ((compare_roles F th xml pdf).is_incorrect = true ↔
      (compare_roles F th xml pdf).incorrect_pdf_roles ≠ []) ∧
    List.Sorted StrLe (compare_roles F th xml pdf).matched_roles ∧
    (compare_roles F th xml pdf).matched_roles.Nodup ∧
    List.Sorted StrLe (compare_roles F th xml pdf).incorrect_pdf_roles ∧
    (compare_roles F th xml pdf).incorrect_pdf_roles.Nodup :=
  ⟨compare_roles_is_incorrect_iff F th xml pdf,
   compare_roles_matched_sorted F th xml pdf,
   compare_roles_matched_nodup F th xml pdf,
   compare_roles_incorrect_sorted F th xml pdf,
   compare_roles_incorrect_nodup F th xml pdf⟩

/-- C7: every pair recorded in the fuzzy map has its XML role in the matched
list, and no role string is both matched and incorrect. -/
theorem fuzzy_values_matched_and_disjoint (F : FuzzyFns) (th : Nat)
    (xml pdf : List Str) :
    (∀ pr ∈ (compare_roles F th xml pdf).fuzzy_matches,
      pr.2 ∈ (compare_roles F th xml pdf).matched_roles) ∧
    (∀ v ∈ (compare_roles F th xml pdf).matched_roles,
      v ∉ (compare_roles F th xml pdf).incorrect_pdf_roles) :=
  ⟨fuzzy_pair_matched F th xml pdf, matched_not_incorrect F th xml pdf⟩

/-- C8: comparing the one-element lists `[s]` against `[s]` matches exactly:
the result is not-incorrect with matched list `[s]`, no incorrect roles and
an empty fuzzy map, for every threshold and every scoring pair. -/
theorem exact_match_property (F : FuzzyFns) (th : Nat) (s : Str) :
    compare_roles F th [s] [s] = ⟨false, [s], [], []⟩ := by
  have hk : hasKey [(normalize_role s, s)] (normalize_role s) = true := by
    rw [hasKey_cons]
    simp
  have hd : directPass (buildDict [s]) (buildDict [s]) = ([s], []) := by
    show List.foldl (dstep (buildDict [s])) ([], [])
      [(normalize_role s, s)] = ([s], [])
    rw [List.foldl_cons, List.foldl_nil, dstep_pos _ _ _ hk]
    show (setInsert (lookupD [(normalize_role s, s)] (normalize_role s)) [],
      ([] : List Str)) = ([s], [])
    rw [lookupD_cons, if_pos rfl]
    show (setInsert s [], []) = ([s], [])
    unfold setInsert
    rw [if_neg (List.not_mem_nil s)]
    rfl
  show (⟨!(fuzzyPass F th [s] (buildDict [s])
      (directPass (buildDict [s]) (buildDict [s])).1
      (directPass (buildDict [s]) (buildDict [s])).2).still_incorrect.isEmpty,
    sortStr (fuzzyPass F th [s] (buildDict [s])
      (directPass (buildDict [s]) (buildDict [s])).1
      (directPass (buildDict [s]) (buildDict [s])).2).matched,
    sortStr ((fuzzyPass F th [s] (buildDict [s])
      (directPass (buildDict [s]) (buildDict [s])).1
      (directPass (buildDict [s]) (buildDict [s])).2).still_incorrect.map
        (lookupD (buildDict [s]))),
    (fuzzyPass F th [s] (buildDict [s])
      (directPass (buildDict [s]) (buildDict [s])).1
      (directPass (buildDict [s]) (buildDict [s])).2).fuzzy_map⟩ :
      MatchResult) = ⟨false, [s], [], []⟩
  rw [hd]
  rfl

/-- C6 counterexample: with XML roles `["abxxx", "abcdf"]` and the PDF role
`"abcde"`, threshold 80 fuzzily pairs `"abcde"` with `"abcdf"`, but lowering
the threshold to 40 makes the earlier candidate `"abxxx"` the first fit, so
the pair `("abcde", "abcdf")` disappears from the fuzzy map. -/
theorem threshold_lowering_changes_fuzzy_pair :
    (compare_roles stepFuzz 80 ["abxxx".data, "abcdf".data]
      ["abcde".data]).fuzzy_matches = [("abcde".data, "abcdf".data)] ∧
    (compare_roles stepFuzz 40 ["abxxx".data, "abcdf".data]
      ["abcde".data]).fuzzy_matches = [("abcde".data, "abxxx".data)] ∧
    decide (("abcde".data, "abcdf".data) ∈
      (compare_roles stepFuzz 40 ["abxxx".data, "abcdf".data]
        ["abcde".data]).fuzzy_matches) = false := by
  refine ⟨by decide, by decide, by decide⟩

/-- C6 (amended): for a fixed input pair, lowering the fuzzy threshold never
moves a PDF role that avoided `incorrect_pdf_roles` into it, and every PDF
spelling that is a key of the fuzzy map at the higher threshold is still a
key at the lower one (though the XML role it maps to may change to an
earlier candidate). -/
theorem threshold_monotonicity_amended (F : FuzzyFns) (xml pdf : List Str)
    (th th' : Nat) (h : th' ≤ th) :
    (∀ v ∈ (compare_roles F th' xml pdf).incorrect_pdf_roles,
      v ∈ (compare_roles F th xml pdf).incorrect_pdf_roles) ∧
    (∀ k ∈ (compare_roles F th xml pdf).fuzzy_matches.map Prod.fst,
      k ∈ (compare_roles F th' xml pdf).fuzzy_matches.map Prod.fst) := by
  constructor
  · intro v hv
    rw [compare_roles_incorrect_mem] at hv ⊢
    rcases hv with ⟨n, hn, hnone, rfl⟩
    refine ⟨n, hn, ?_, rfl⟩
    rcases hsome : findFuzzy F th (lookupD (buildDict pdf) n) xml with _ | x
    · rfl
    · rcases findFuzzy_mono F (lookupD (buildDict pdf) n) th th' h xml
        ⟨x, hsome⟩ with ⟨y, hy⟩
      rw [hy] at hnone
      cases hnone
  · intro k hk
    rw [List.mem_map] at hk ⊢
    rcases hk with ⟨pr, hpr, rfl⟩
    rw [compare_roles_fuzzy_eq, List.mem_filterMap] at hpr
    rcases hpr with ⟨n, hn, hfn⟩
    rcases hx : findFuzzy F th (lookupD (buildDict pdf) n) xml with _ | x
    · rw [hx] at hfn
      cases hfn
    · rw [hx] at hfn
      have hpr1 : pr.1 = lookupD (buildDict pdf) n := by
        rw [show Option.map (fun x => (lookupD (buildDict pdf) n, x))
          (some x) = some (lookupD (buildDict pdf) n, x) from rfl,
          Option.some.injEq] at hfn
        rw [← hfn]
      rcases findFuzzy_mono F (lookupD (buildDict pdf) n) th th' h xml
        ⟨x, hx⟩ with ⟨y, hy⟩
      refine ⟨(lookupD (buildDict pdf) n, y), ?_, by rw [hpr1]⟩
      rw [compare_roles_fuzzy_eq, List.mem_filterMap]
      refine ⟨n, hn, ?_⟩
      rw [hy]
      rfl

/-- C6 witness: the amended monotonicity applied at thresholds 80 and 40 to
an unmatched pair, whose incorrect entry survives the lowering. -/
theorem threshold_monotonicity_amended_witness :
    40 ≤ 80 ∧
    "Astronaut".data ∈ (compare_roles zeroFuzz 40 ["Manager".data]
      ["Astronaut".data]).incorrect_pdf_roles ∧
    "Astronaut".data ∈ (compare_roles zeroFuzz 80 ["Manager".data]
      ["Astronaut".data]).incorrect_pdf_roles :=
  ⟨by decide, by decide,
    (threshold_monotonicity_amended zeroFuzz ["Manager".data]
      ["Astronaut".data] 80 40 (by decide)).1 "Astronaut".data (by decide)⟩

/-- C9 counterexample: a whitespace-only PDF role is not dropped: with no XML
roles, `compare_roles` on the single PDF role `" "` reports it incorrect and
sets `is_incorrect`, where the claim expects empty sets and `false`.  (No
fuzzy scoring is ever consulted because the XML list is empty.) -/
theorem whitespace_pdf_reported_incorrect :
    (compare_roles zeroFuzz 80 [] [" ".data]).is_incorrect = true ∧
    (compare_roles zeroFuzz 80 [] [" ".data]).incorrect_pdf_roles =
      [" ".data] ∧
    decide ((compare_roles zeroFuzz 80 [] [" ".data]).is_incorrect = false)
      = false := by
  refine ⟨by decide, by decide, by decide⟩

/-- C9 (amended): an empty PDF role list yields the empty, not-incorrect
result for any XML list; with an empty XML list nothing is matched or
fuzzy-matched and every PDF role (whitespace-only ones included) is
represented in `incorrect_pdf_roles` by the last-seen spelling of its
normalized key. -/
theorem degenerate_inputs_amended (F : FuzzyFns) (th : Nat)
    (xml pdf : List Str) (r : Str) :
    compare_roles F th xml [] = ⟨false, [], [], []⟩ ∧
    ((compare_roles F th [] pdf).matched_roles = [] ∧
      (compare_roles F th [] pdf).fuzzy_matches = []) ∧
    (r ∈ pdf → ∃ v ∈ (compare_roles F th [] pdf).incorrect_pdf_roles,
      normalize_role v = normalize_role r) := by
  refine ⟨rfl, ⟨?_, ?_⟩, ?_⟩
  · rw [List.eq_nil_iff_forall_not_mem]
    intro v hv
    rcases (compare_roles_matched_mem F th [] pdf v).mp hv with
      ⟨p, hp, hkey, _⟩ | ⟨n, _, hfind⟩
    · have h0 : (false : Bool) = true := hkey
      cases h0
    · have h0 : (none : Option Str) = some v := hfind
      cases h0
  · rw [compare_roles_fuzzy_eq, List.filterMap_eq_nil_iff]
    intro a _
    rfl
  · intro hr
    have hk : normalize_role r ∈ dictKeys (buildDict pdf) :=
      (mem_keys_buildDict pdf _).mpr ⟨r, hr, rfl⟩
    have hx : hasKey (buildDict ([] : List Str)) (normalize_role r) = false :=
      rfl
    have hun : normalize_role r ∈ unresolvedKeys [] pdf :=
      mem_unresolvedKeys_of_key _ _ _ hk hx
    refine ⟨lookupD (buildDict pdf) (normalize_role r), ?_,
      lookup_key_norm _ _ hk⟩
    rw [compare_roles_incorrect_mem]
    exact ⟨normalize_role r, hun, rfl, rfl⟩

/-- C10 (implicit): the comparer collapses PDF roles by normalized key:
`incorrect_pdf_roles` and the key set of the fuzzy map hold at most one entry
per distinct normalized key, and the spelling used is the LAST occurrence in
`pdf_roles` among those sharing that normalized key. -/
theorem pdf_collapsed_by_normalized_key (F : FuzzyFns) (th : Nat)
    (xml pdf : List Str) :
    ((compare_roles F th xml pdf).incorrect_pdf_roles.map
      normalize_role).Nodup ∧
    ((compare_roles F th xml pdf).fuzzy_matches.map
      (fun pr => normalize_role pr.1)).Nodup ∧
    (∀ v ∈ (compare_roles F th xml pdf).incorrect_pdf_roles,
      (pdf.filter
        (fun x => decide (normalize_role x = normalize_role v))).getLast? =
          some v) ∧
    (∀ pr ∈ (compare_roles F th xml pdf).fuzzy_matches,
      (pdf.filter
        (fun x => decide (normalize_role x = normalize_role pr.1))).getLast? =
          some pr.1) := by
  have hfilnd : ((unresolvedKeys xml pdf).filter
      (fun n => (findFuzzy F th (lookupD (buildDict pdf) n) xml).isNone)).Nodup :=
    (List.filter_sublist _).nodup (unresolvedKeys_nodup xml pdf)
  refine ⟨?_, ?_, ?_, ?_⟩
  · rw [compare_roles_incorrect_eq]
    have hperm := (sortStr_perm (((unresolvedKeys xml pdf).filter
      (fun n => (findFuzzy F th (lookupD (buildDict pdf) n) xml).isNone)).map
        (lookupD (buildDict pdf)))).map normalize_role
    apply hperm.symm.nodup
    rw [List.map_map]
    have hcongr : ∀ n ∈ (unresolvedKeys xml pdf).filter
        (fun n => (findFuzzy F th (lookupD (buildDict pdf) n) xml).isNone),
        (normalize_role ∘ lookupD (buildDict pdf)) n = id n := by
      intro n hn
      exact lookup_key_norm pdf n
        (unresolvedKeys_sub_dictKeys _ _ _ (List.mem_of_mem_filter hn))
    rw [List.map_congr_left hcongr, List.map_id]
    exact hfilnd
  · rw [compare_roles_fuzzy_eq, List.map_filterMap]
    apply nodup_filterMap_of_id _ _ ?_ (unresolvedKeys_nodup xml pdf)
    intro n hn b hb
    rcases hx : findFuzzy F th (lookupD (buildDict pdf) n) xml with _ | x
    · rw [hx] at hb
      cases hb
    · rw [hx] at hb
      have hb' : normalize_role (lookupD (buildDict pdf) n) = b := by
        rw [show Option.map (fun pr : Str × Str => normalize_role pr.1)
          (Option.map (fun x => (lookupD (buildDict pdf) n, x)) (some x)) =
            some (normalize_role (lookupD (buildDict pdf) n)) from rfl,
          Option.some.injEq] at hb
        exact hb
      rw [← hb']
      exact lookup_key_norm pdf n (unresolvedKeys_sub_dictKeys _ _ _ hn)
  · intro v hv
    rcases (compare_roles_incorrect_mem F th xml pdf v).mp hv with
      ⟨n, hn, _, rfl⟩
    have hnd : n ∈ dictKeys (buildDict pdf) :=
      unresolvedKeys_sub_dictKeys _ _ _ hn
    have hvp : lookupD (buildDict pdf) n ∈ pdf := lookup_key_mem pdf n hnd
    have hlast := buildDict_lookup_last pdf (lookupD (buildDict pdf) n) hvp
    rw [lookup_key_norm pdf n hnd] at hlast
    rw [lookup_key_norm pdf n hnd]
    exact hlast
  · intro pr hpr
    rw [compare_roles_fuzzy_eq, List.mem_filterMap] at hpr
    rcases hpr with ⟨n, hn, hfn⟩
    rcases hx : findFuzzy F th (lookupD (buildDict pdf) n) xml with _ | x
    · rw [hx] at hfn
      cases hfn
    · rw [hx] at hfn
      have hpr1 : pr.1 = lookupD (buildDict pdf) n := by
        rw [show Option.map (fun x => (lookupD (buildDict pdf) n, x))
          (some x) = some (lookupD (buildDict pdf) n, x) from rfl,
          Option.some.injEq] at hfn
        rw [← hfn]
      rw [hpr1]
      have hnd : n ∈ dictKeys (buildDict pdf) :=
        unresolvedKeys_sub_dictKeys _ _ _ hn
      have hvp : lookupD (buildDict pdf) n ∈ pdf := lookup_key_mem pdf n hnd
      have hlast := buildDict_lookup_last pdf (lookupD (buildDict pdf) n) hvp
      rw [lookup_key_norm pdf n hnd] at hlast
      rw [lookup_key_norm pdf n hnd]
      exact hlast
